import Mathlib

/-!
# Verification of the pyoak XPath core (`src/pyoak/match/xpath.py`)

This file gives a shallow embedding of the XPath-like path language of
`pyoak`: the grammar/lexer, the `XPathTransformer` element compiler, the
`ASTXpath` object with its process-wide cache, the bottom-up matcher
`_match_node_xpath` and the top-down search `ASTXpath.findall`, together
with theorems about the claims of the specification.

The tree-node abstraction (`pyoak.node.ASTNode`) and the type-name
resolution helper (`pyoak.match.helpers.check_and_get_ast_node_type`) are
not part of the source under verification; they are modelled from the
specification (see the doc comments marked `Modelled from the spec:`).
-/

namespace PyoakXpath

/-- Modelled from the spec: the read-only view of a `pyoak.node.ASTNode`
that the xpath core requires (spec §3, §6).  A node carries its runtime
class name, the optional name of the parent field through which it is
attached (`node.parent_field.name`), the optional index within that field
(`node.parent_index`), and its ordered list of direct children
(`node.get_child_nodes()`). -/
inductive ASTNode : Type where
  | mk (cls : String) (parentFieldName : Option String)
      (parentIdx : Option Int) (children : List ASTNode)

/-- The runtime class name of a node. -/
def ASTNode.cls : ASTNode → String
  | .mk c _ _ _ => c

/-- The name of the field of the parent through which the node is attached
(`node.parent_field.name`), or `none`. -/
def ASTNode.parentFieldName : ASTNode → Option String
  | .mk _ pf _ _ => pf

/-- The index of the node within its parent field (`node.parent_index`),
or `none`. -/
def ASTNode.parentIdx : ASTNode → Option Int
  | .mk _ _ pi _ => pi

/-- The ordered list of direct children (`node.get_child_nodes()`). -/
def ASTNode.children : ASTNode → List ASTNode
  | .mk _ _ _ ch => ch

/-- A located node: the node itself together with its chain of proper
ancestors, nearest parent first.  A Python `ASTNode` object knows its
parent chain (`node.parent`, `node.ancestors()`), so a pair
`(node, ancestors)` is the value-level image of one tree-node object. -/
abbrev Spine := ASTNode × List ASTNode

/-- Modelled from the spec: `node.ancestors()` enumerates the proper
ancestors of a node starting at its parent and ending at the tree root
(spec §4.4: "try every further ancestor in root-ward order").  Given the
ancestor chain of a node, this returns each ancestor as a located node. -/
def spineTails : List ASTNode → List Spine
  | [] => []
  | a :: rest => (a, rest) :: spineTails rest

/-- `ASTXpathElement` of `xpath.py` (lines 39-44): one compiled path
segment.  `ast_class` is the name of the resolved node class
(`"ASTNode"` stands for the wildcard base class). -/
structure ASTXpathElement where
  ast_class : String
  parent_field : Option String
  parent_index : Option Int
  anywhere : Bool
deriving DecidableEq, Repr

/-- Modelled from the spec: the type-name resolution collaborator and the
`is_instance` check of the host type system (spec §6).  `resolve` maps a
bare identifier to a registered node-class name or fails
(`check_and_get_ast_node_type`); `isInst` answers
`isinstance(node, cls)` given the node's runtime class name and a target
class name. -/
structure TypeRegistry where
  resolve : String → Option String
  isInst : String → String → Bool

/-- `_match_node_element` (xpath.py lines 133-144): the single-element
test.  True iff the node is an instance of the element's class, the
element's field filter (when present) equals the node's parent-field
name, and the element's index filter (when present) equals the node's
parent index. -/
def matchNodeElement (R : TypeRegistry) (n : ASTNode) (el : ASTXpathElement) : Bool :=
  R.isInst n.cls el.ast_class
    && (match el.parent_field with
        | none => true
        | some f => n.parentFieldName.isSome && n.parentFieldName == some f)
    && (match el.parent_index with
        | none => true
        | some i => some i == n.parentIdx)

/-- `_match_node_xpath` (xpath.py lines 147-182), for a non-empty element
list split into its head and tail.  `n` is the node, `ancs` its proper
ancestor chain (nearest first; `node.parent is None` iff `ancs = []`).
The element list is in leaf-to-root order. -/
def matchNodeXpathGo (R : TypeRegistry) (n : ASTNode) (ancs : List ASTNode)
    (e : ASTXpathElement) : List ASTXpathElement → Bool
  | [] =>
    -- tail is empty: the last element matched; succeed iff it was
    -- `anywhere` or the node has no parent (lines 159-164)
    if !matchNodeElement R n e then false
    else e.anywhere || ancs.isEmpty
  | e2 :: rest2 =>
    if !matchNodeElement R n e then false
    else
      match ancs with
      | [] => false  -- remaining elements but no parent (lines 168-169)
      | p :: ancs2 =>
        if e.anywhere then
          -- any ancestor may match the remaining elements (lines 172-176)
          (spineTails (p :: ancs2)).any fun pr =>
            matchNodeXpathGo R pr.1 pr.2 e2 rest2
        else
          -- only the direct parent may match (lines 177-179)
          matchNodeXpathGo R p ancs2 e2 rest2

/-- `_match_node_xpath` on an arbitrary element list.  The Python code
evaluates `elements[0]`, which raises on an empty list; `none` models
that error. -/
def matchNodeXpath (R : TypeRegistry) (n : ASTNode) (ancs : List ASTNode) :
    List ASTXpathElement → Option Bool
  | [] => none
  | e :: rest => some (matchNodeXpathGo R n ancs e rest)

mutual

/-- Modelled from the spec: `node.dfs(skip_self=False)` — all nodes of the
subtree rooted at a node in depth-first preorder (spec §6,
`descendants_of`), as located nodes.  `ancs` is the ancestor chain of the
subtree root. -/
def dfsSp : ASTNode → List ASTNode → List Spine
  | .mk c pf pi ch, ancs =>
    (ASTNode.mk c pf pi ch, ancs) :: dfsSpAll ch (ASTNode.mk c pf pi ch :: ancs)

/-- Depth-first traversal of a list of sibling subtrees sharing the
ancestor chain `ancs`. -/
def dfsSpAll : List ASTNode → List ASTNode → List Spine
  | [], _ => []
  | t :: ts, ancs => dfsSp t ancs ++ dfsSpAll ts ancs

end

/-- Modelled from the spec: `node.dfs(skip_self=True)` — the proper
descendants of a located node in depth-first preorder. -/
def dfsSkipSelf (sp : Spine) : List Spine :=
  dfsSpAll sp.1.children (sp.1 :: sp.2)

/-- Modelled from the spec: `node.get_child_nodes()` as located nodes. -/
def childrenSp (sp : Spine) : List Spine :=
  sp.1.children.map fun c => (c, sp.1 :: sp.2)

/-- One iteration of the outer loop of `ASTXpath.findall` (xpath.py lines
240-253): expand every node of the current frontier through one element,
keeping the nodes that satisfy `_match_node_element`. -/
def findallStep (R : TypeRegistry) (work : List Spine) (el : ASTXpathElement) :
    List Spine :=
  work.flatMap fun sp =>
    if el.anywhere then
      (dfsSkipSelf sp).filter fun q => matchNodeElement R q.1 el
    else
      (childrenSp sp).filter fun q => matchNodeElement R q.1 el

/-- The `_DUMMY_XPATH_ROOT(root)` wrapper node of `ASTXpath.findall`
(xpath.py lines 189-191, 238): a synthetic parent of the search root. -/
def dummyNode (root : ASTNode) : ASTNode :=
  ASTNode.mk "_DUMMY_XPATH_ROOT" none none [root]

/-- The frontier produced by the loop of `ASTXpath.findall` after
processing `els` (root-to-leaf order), starting from the synthetic
wrapper of `root`. -/
def findallWork (R : TypeRegistry) (els : List ASTXpathElement) (root : ASTNode) :
    List Spine :=
  els.foldl (findallStep R) [(dummyNode root, [])]

/-- `ASTXpath.findall` (xpath.py lines 229-255) with elements in
root-to-leaf order.  When the element list is empty the Python generator
refers to the unbound local `new_work` and raises; `none` models that
error.  Otherwise the generator yields exactly the final frontier. -/
def findallX (R : TypeRegistry) (els : List ASTXpathElement) (root : ASTNode) :
    Option (List Spine) :=
  match els with
  | [] => none
  | _ :: _ => some (findallWork R els root)

/-! ## Grammar and lexer

The Lark grammar of `xpath.py` (lines 16-34).  Terminals: the anonymous
literals `/`, `@`, `[`, `]`, plus `CNAME` (`(LETTER|"_")(LETTER|DIGIT|"_")*`,
longest match), single-character `DIGIT`, and ignored whitespace.  The
lexer below implements longest-match tokenisation for exactly these
terminals. -/

/-- A token of the xpath grammar. -/
inductive Tok : Type where
  | slash | atSign | lbrack | rbrack
  | cname (s : String)
  | digitTok (c : Char)
deriving DecidableEq, Repr

/-- First character of a `CNAME` terminal: a letter or underscore. -/
def isNameStart (c : Char) : Bool := c.isAlpha || c = '_'

/-- Continuation character of a `CNAME` terminal: letter, digit or
underscore. -/
def isNameChar (c : Char) : Bool := c.isAlphanum || c = '_'

/-- The single-character terminals of the grammar. -/
def singleTok (c : Char) : Option Tok :=
  if c = '/' then some .slash
  else if c = '@' then some .atSign
  else if c = '[' then some .lbrack
  else if c = ']' then some .rbrack
  else if c.isDigit then some (.digitTok c)
  else none

/-- Emit the pending `CNAME` token (accumulated in reverse) in front of
`ts`, if one is pending. -/
def flushAcc (acc : List Char) (ts : List Tok) : List Tok :=
  match acc with
  | [] => ts
  | _ :: _ => .cname (String.mk acc.reverse) :: ts

/-- Longest-match lexer.  `acc` holds the characters of a partially read
`CNAME`, in reverse.  Returns `none` on a character no terminal matches
(Lark's `UnexpectedInput`). -/
def lexGo : List Char → List Char → Option (List Tok)
  | [], acc => some (flushAcc acc [])
  | c :: r, acc =>
    if !acc.isEmpty && isNameChar c then
      -- a letter, digit or underscore extends a pending CNAME
      lexGo r (c :: acc)
    else if isNameStart c then
      -- a letter or underscore starts a CNAME
      lexGo r [c]
    else if c.isWhitespace then
      (lexGo r []).map (flushAcc acc)
    else
      match singleTok c with
      | some t => (lexGo r []).map fun ts => flushAcc acc (t :: ts)
      | none => none

/-- Tokenise a path string. -/
def tokenize (s : List Char) : Option (List Tok) := lexGo s []

/-! ## Parser

`xpath: element* self`, `element: "/" field_spec? index_spec? class_spec?`,
`self: "/" field_spec? index_spec? class_spec` — i.e. a non-empty sequence
of `/`-introduced segments, each `field_spec? index_spec? class_spec?`,
where the final segment must carry a class. -/

/-- A raw parsed segment before the transformer runs: the optional field
name (`field_spec`), the optional list of digit characters of an
`index_spec`, and the optional class name (`class_spec`). -/
structure RawSegS where
  pf : Option String
  ix : Option (List Char)
  cls : Option String
deriving DecidableEq, Repr

/-- Split the token stream into segments at `/` tokens (the tokens after
the mandatory leading `/` have already been taken). -/
def splitAtSlash : List Tok → List (List Tok)
  | [] => [[]]
  | .slash :: r => [] :: splitAtSlash r
  | t :: r =>
    match splitAtSlash r with
    | [] => [[t]]
    | g :: gs => (t :: g) :: gs

/-- Parse an optional `field_spec := "@" CNAME` at the head of a
segment. -/
def parseField : List Tok → Except String (Option String × List Tok)
  | .atSign :: .cname nm :: r => .ok (some nm, r)
  | .atSign :: _ => .error "Incorrect xpath definition"
  | r => .ok (none, r)

/-- Consume `DIGIT* "]"` after an opening bracket. -/
def parseIdxDigits : List Tok → Except String (List Char × List Tok)
  | .rbrack :: r => .ok ([], r)
  | .digitTok c :: r =>
    match parseIdxDigits r with
    | .error e => .error e
    | .ok (ds, r2) => .ok (c :: ds, r2)
  | _ => .error "Incorrect xpath definition"

/-- Parse an optional `index_spec := "[" DIGIT* "]"`. -/
def parseIdx : List Tok → Except String (Option (List Char) × List Tok)
  | .lbrack :: r =>
    (match parseIdxDigits r with
     | .error e => .error e
     | .ok (ds, r2) => .ok (some ds, r2))
  | r => .ok (none, r)

/-- Parse an optional trailing `class_spec := CNAME`; the segment must end
here. -/
def parseCls : List Tok → Except String (Option String)
  | [] => .ok none
  | [.cname nm] => .ok (some nm)
  | _ => .error "Incorrect xpath definition"

/-- Parse one segment body (the tokens between two `/`). -/
def parseGroup (g : List Tok) : Except String RawSegS :=
  match parseField g with
  | .error e => .error e
  | .ok (pf, r1) =>
    match parseIdx r1 with
    | .error e => .error e
    | .ok (ix, r2) =>
      match parseCls r2 with
      | .error e => .error e
      | .ok cls => .ok ⟨pf, ix, cls⟩

/-- Parse every segment body. -/
def parseGroups : List (List Tok) → Except String (List RawSegS)
  | [] => .ok []
  | g :: gs =>
    match parseGroup g with
    | .error e => .error e
    | .ok s =>
      match parseGroups gs with
      | .error e => .error e
      | .ok rest => .ok (s :: rest)

/-- Parse a token stream as `element* self`: the stream must begin with
`/`, and the final segment must carry a class (the `self` rule). -/
def parsePath (toks : List Tok) : Except String (List RawSegS) :=
  match toks with
  | .slash :: rest =>
    (match parseGroups (splitAtSlash rest) with
     | .error e => .error e
     | .ok segs =>
       match segs.getLast? with
       | some sg =>
         if sg.cls.isSome then .ok segs else .error "Incorrect xpath definition"
       | none => .error "Incorrect xpath definition")
  | _ => .error "Incorrect xpath definition"

/-! ## The transformer (`XPathTransformer`, xpath.py lines 46-125) -/

/-- The tuple produced by `XPathTransformer.element` / `.self` for one
raw segment: `(parent_field, parent_index, ast_class)`.  The class is the
name of a resolved node class; `none` is the empty placeholder segment
(the segment specified nothing at all). -/
abbrev RawSeg := Option String × Option Int × Option String

/-- `XPathTransformer.index_spec` (lines 119-122): an empty digit list
yields `-1`; otherwise the integer value of the **first** digit token. -/
def indexSpecT (digits : List Char) : Int :=
  match digits with
  | [] => -1
  | d :: _ => Int.ofNat (d.toNat - '0'.toNat)

/-- `XPathTransformer.class_spec` (lines 111-117) via the modelled
resolver, together with the `ASTNode` default of `element` for a segment
with specs but no class name. -/
def resolveClsName (R : TypeRegistry) : Option String → Except String String
  | none => .ok "ASTNode"
  | some nm =>
    match R.resolve nm with
    | some t => .ok t
    | none => .error ("Unknown AST type " ++ nm)

/-- `parent_index = arg if arg > -1 else None` (line 100) applied to the
transformed index spec, when one is present. -/
def idxFilter (ix : Option (List Char)) : Option Int :=
  match ix.map indexSpecT with
  | none => none
  | some v => if v > -1 then some v else none

/-- `XPathTransformer.element` (lines 86-104) combined with the
`class_spec` resolution: an entirely empty segment (`len(args) == 0`) is
the placeholder `(none, none, none)`; otherwise the class defaults to the
`ASTNode` base when absent, an unknown class name is a definition error,
and an index value of `-1` (empty `[]`) becomes "no index filter". -/
def elementT (R : TypeRegistry) (sg : RawSegS) : Except String RawSeg :=
  if sg = ⟨none, none, none⟩ then .ok (none, none, none)
  else
    match resolveClsName R sg.cls with
    | .error e => .error e
    | .ok c => .ok (sg.pf, idxFilter sg.ix, some c)

/-- Run the transformer over every raw segment, in path order. -/
def resolveSegs (R : TypeRegistry) : List RawSegS → Except String (List RawSeg)
  | [] => .ok []
  | s :: rest =>
    match elementT R s with
    | .error e => .error e
    | .ok r =>
      match resolveSegs R rest with
      | .error e => .error e
      | .ok rs => .ok (r :: rs)

/-- Replace the `anywhere` flag of the last emitted element by `true`
(`ret[-1] = ASTXpathElement(..., True)`, lines 63-71).  `none` models the
`IndexError` of `ret[-1]` on an empty list. -/
def setLastAnywhere : List ASTXpathElement → Option (List ASTXpathElement)
  | [] => none
  | [e] => some [⟨e.ast_class, e.parent_field, e.parent_index, true⟩]
  | e :: rest => (setLastAnywhere rest).map (e :: ·)

/-- The loop of `XPathTransformer.xpath` (lines 47-84) over the raw
segments in reverse path order.  A class-bearing segment emits one
element with `anywhere = False`; a class-less placeholder marks the most
recently emitted element `anywhere` and emits nothing (the inner `while`
that advances the shared iterator, including its exhaustion return, is
exactly this recursion). -/
def xformGo : List ASTXpathElement → List RawSeg → Option (List ASTXpathElement)
  | ret, [] => some ret
  | ret, (pf, pi, some c) :: rest =>
    xformGo (ret ++ [⟨c, pf, pi, false⟩]) rest
  | ret, (_, _, none) :: rest =>
    match setLastAnywhere ret with
    | none => none
    | some ret2 => xformGo ret2 rest

/-- `XPathTransformer.xpath`: process the raw segments in reverse,
producing the compiled elements in leaf-to-root order. -/
def xpathXform (args : List RawSeg) : Option (List ASTXpathElement) :=
  xformGo [] args.reverse

/-! ## The compile pipeline and the `ASTXpath` object -/

/-- `xpath_parser.parse` with the inline transformer (lines 128-130):
lex, parse, resolve and compile a path string into its leaf-to-root
element list; any failure is an `ASTXpathDefinitionError`. -/
def parseXpathElems (R : TypeRegistry) (s : List Char) :
    Except String (List ASTXpathElement) :=
  match tokenize s with
  | none => .error "Incorrect xpath definition"
  | some toks =>
    match parsePath toks with
    | .error e => .error e
    | .ok segs =>
      match resolveSegs R segs with
      | .error e => .error e
      | .ok raws =>
        match xpathXform raws with
        | some els => .ok els
        | none => .error "Incorrect xpath definition"

/-- `xpath.startswith("/")`: the string begins with a slash. -/
def startsWithSlash (s : String) : Bool := s.data.head? == some '/'

/-- The normalisation of `ASTXpath.__init__` (lines 203-205): a relative
path is the same as an absolute path starting with "anywhere". -/
def normalizeXpath (s : String) : String :=
  if startsWithSlash s then s else "//" ++ s

/-- The element lists computed by `ASTXpath.__init__` for a source
string: leaf-to-root order (for `match`). -/
def compileXpath (R : TypeRegistry) (s : String) :
    Except String (List ASTXpathElement) :=
  parseXpathElems R (normalizeXpath s).data

/-- The value-level view of one `ASTXpath` Python object: its identity
(`oid` models the object reference) and the two element-list attributes,
`none` while `__init__` has not (yet) set them. -/
structure PathObj where
  oid : Nat
  elemsRev : Option (List ASTXpathElement)
  elems : Option (List ASTXpathElement)
deriving DecidableEq, Repr

/-- The process-wide state: the `_AST_XPATH_CACHE` dict (line 185,
insertion ordered, keyed by the original source string) and a counter
producing fresh object identities. -/
structure XpathCacheState where
  cache : List (String × PathObj)
  nextOid : Nat
deriving DecidableEq, Repr

/-- `_AST_XPATH_CACHE[s]` / `s in _AST_XPATH_CACHE`. -/
def cacheLookup (st : XpathCacheState) (s : String) : Option PathObj :=
  (st.cache.find? fun p => p.1 == s).map (·.2)

/-- `ASTXpath.__new__` (lines 197-200): insert a fresh, uninitialised
object under the *original* source string if absent, then return the
cached object. -/
def astXpathNew (st : XpathCacheState) (s : String) : PathObj × XpathCacheState :=
  match cacheLookup st s with
  | some o => (o, st)
  | none =>
    let o : PathObj := ⟨st.nextOid, none, none⟩
    (o, ⟨st.cache ++ [(s, o)], st.nextOid + 1⟩)

/-- `ASTXpath.__init__` (lines 202-223): normalise, parse and store both
element lists on the object; on failure raise
`ASTXpathDefinitionError` and leave the object's attributes as they
were. -/
def astXpathInit (R : TypeRegistry) (o : PathObj) (s : String) :
    Except String PathObj :=
  (compileXpath R s).map fun rev =>
    { o with elemsRev := some rev, elems := some rev.reverse }

/-- Overwrite the object stored under key `s` (a Python attribute
assignment on the cached object is visible through the cache, which
holds the same reference). -/
def cacheWrite (cache : List (String × PathObj)) (s : String) (o : PathObj) :
    List (String × PathObj) :=
  cache.map fun p => if p.1 == s then (p.1, o) else p

/-- A full `ASTXpath(s)` constructor call: `__new__` (which may insert
into the cache) followed by `__init__` on the returned object.  On
success the initialised object is visible in the cache; on failure the
error propagates and the cache keeps whatever `__new__` left there. -/
def astXpathCtor (R : TypeRegistry) (st : XpathCacheState) (s : String) :
    Except String PathObj × XpathCacheState :=
  let (o, st1) := astXpathNew st s
  match astXpathInit R o s with
  | .ok o2 => (.ok o2, ⟨cacheWrite st1.cache s o2, st1.nextOid⟩)
  | .error e => (.error e, st1)

/-! ## Lemmas on the element compiler -/

theorem setLastAnywhere_ne_nil :
    ∀ (ret ret2 : List ASTXpathElement), setLastAnywhere ret = some ret2 → ret2 ≠ []
  | [], _, h => by simp [setLastAnywhere] at h
  | [e], ret2, h => by
    simp [setLastAnywhere] at h
    subst h
    simp
  | e :: e2 :: rest, ret2, h => by
    simp [setLastAnywhere] at h
    obtain ⟨a, _, h2⟩ := h
    subst h2
    simp

theorem setLastAnywhere_idem :
    ∀ (ret ret2 : List ASTXpathElement),
      setLastAnywhere ret = some ret2 → setLastAnywhere ret2 = some ret2
  | [], _, h => by simp [setLastAnywhere] at h
  | [e], ret2, h => by
    simp [setLastAnywhere] at h
    subst h
    simp [setLastAnywhere]
  | e :: e2 :: rest, ret2, h => by
    simp [setLastAnywhere] at h
    obtain ⟨a, ha, h2⟩ := h
    have hne := setLastAnywhere_ne_nil _ _ ha
    have hi := setLastAnywhere_idem (e2 :: rest) a ha
    subst h2
    match a, hne, hi with
    | b :: bs, _, hi => simp [setLastAnywhere, hi]

/-- A run of class-less placeholder raw segments marks the last emitted
element `anywhere` exactly once (further placeholders are idempotent) and
emits nothing. -/
theorem xformGo_none_run :
    ∀ (ns : List RawSeg), (∀ x ∈ ns, x.2.2 = none) → ns ≠ [] →
      ∀ (ret ret2 : List ASTXpathElement) (tail : List RawSeg),
        setLastAnywhere ret = some ret2 →
        xformGo ret (ns ++ tail) = xformGo ret2 tail
  | [], _, hne, _, _, _, _ => absurd rfl hne
  | [(pf, pi, cls)], hn, _, ret, ret2, tail, hret => by
    have hcls : cls = none := hn (pf, pi, cls) (by simp)
    subst hcls
    simp [xformGo, hret]
  | (pf, pi, cls) :: y :: ns', hn, _, ret, ret2, tail, hret => by
    have hcls : cls = none := hn (pf, pi, cls) (by simp)
    subst hcls
    have hrec := xformGo_none_run (y :: ns')
      (fun x hx => hn x (by simp [hx])) (by simp) ret2 ret2 tail
      (setLastAnywhere_idem _ _ hret)
    simpa [xformGo, hret] using hrec

theorem xformGo_ne_nil :
    ∀ (l : List RawSeg) (ret out : List ASTXpathElement),
      ret ≠ [] → xformGo ret l = some out → out ≠ []
  | [], ret, out, hne, h => by
    simp [xformGo] at h
    simpa [← h] using hne
  | (pf, pi, some c) :: rest, ret, out, hne, h => by
    simp only [xformGo] at h
    exact xformGo_ne_nil rest _ out (by simp) h
  | (pf, pi, none) :: rest, ret, out, hne, h => by
    simp only [xformGo] at h
    cases hs : setLastAnywhere ret with
    | none => rw [hs] at h; simp at h
    | some ret2 =>
      rw [hs] at h
      exact xformGo_ne_nil rest ret2 out (setLastAnywhere_ne_nil _ _ hs) h

/-! ## Lemmas on the parser and pipeline -/

theorem parsePath_last_cls {toks : List Tok} {segs : List RawSegS}
    (h : parsePath toks = .ok segs) :
    ∃ sg, segs.getLast? = some sg ∧ sg.cls.isSome := by
  unfold parsePath at h
  split at h
  · split at h
    · simp at h
    · split at h
      · split at h
        · rename_i segs' sg hlast hcls
          cases h
          exact ⟨sg, hlast, hcls⟩
        · simp at h
      · simp at h
  · simp at h

theorem resolveSegs_forall2 (R : TypeRegistry) :
    ∀ (segs : List RawSegS) (raws : List RawSeg),
      resolveSegs R segs = .ok raws →
      List.Forall₂ (fun sg rw => elementT R sg = .ok rw) segs raws
  | [], raws, h => by
    simp [resolveSegs] at h
    simp [← h]
  | s :: rest, raws, h => by
    simp only [resolveSegs] at h
    split at h
    · simp at h
    · rename_i r he
      split at h
      · simp at h
      · rename_i rs hr
        cases h
        exact List.Forall₂.cons he (resolveSegs_forall2 R rest rs hr)

theorem forall2_getLast? {α β : Type} {P : α → β → Prop} :
    ∀ {l₁ : List α} {l₂ : List β}, List.Forall₂ P l₁ l₂ →
      ∀ {a : α}, l₁.getLast? = some a → ∃ b, l₂.getLast? = some b ∧ P a b := by
  intro l₁ l₂ hf
  induction hf with
  | nil => intro a ha; simp at ha
  | @cons x y l₁' l₂' hxy htail ih =>
    intro a ha
    cases htail with
    | nil =>
      simp at ha
      subst ha
      exact ⟨y, by simp, hxy⟩
    | @cons x2 y2 l₁'' l₂'' hxy2 htail2 =>
      rw [List.getLast?_cons_cons] at ha
      obtain ⟨b, hb, hPb⟩ := ih ha
      exact ⟨b, by rw [List.getLast?_cons_cons]; exact hb, hPb⟩

theorem elementT_cls_isSome {R : TypeRegistry} {sg : RawSegS} {rw : RawSeg}
    (hc : sg.cls.isSome) (he : elementT R sg = .ok rw) : rw.2.2.isSome := by
  unfold elementT at he
  split at he
  · rename_i hsg
    rw [hsg] at hc
    simp at hc
  · split at he
    · simp at he
    · cases he
      simp

/-- A successfully compiled path has at least one element. -/
theorem parseXpathElems_ne_nil {R : TypeRegistry} {s : List Char}
    {els : List ASTXpathElement} (h : parseXpathElems R s = .ok els) :
    els ≠ [] := by
  unfold parseXpathElems at h
  split at h
  · simp at h
  · rename_i toks htok
    split at h
    · simp at h
    · rename_i segs hp
      split at h
      · simp at h
      · rename_i raws hr
        split at h
        · rename_i els' hx
          cases h
          obtain ⟨sg, hlast, hcls⟩ := parsePath_last_cls hp
          obtain ⟨rw, hrwlast, hrw⟩ :=
            forall2_getLast? (resolveSegs_forall2 R segs raws hr) hlast
          have hrws : rw.2.2.isSome := elementT_cls_isSome hcls hrw
          have hhead : raws.reverse.head? = some rw := by
            rw [List.head?_reverse]; exact hrwlast
          obtain ⟨pf', pi', cls'⟩ := rw
          obtain ⟨c, hcv⟩ := Option.isSome_iff_exists.mp hrws
          simp only at hcv
          subst hcv
          unfold xpathXform at hx
          cases hrev : raws.reverse with
          | nil => rw [hrev] at hhead; simp at hhead
          | cons r0 tl =>
            rw [hrev] at hhead hx
            simp at hhead
            subst hhead
            simp only [xformGo] at hx
            exact xformGo_ne_nil tl _ els (by simp) hx
        · simp at h

/-! ## Located nodes and the descendant relation

`Descends r anc n` says that `n` is a node of the tree rooted at `r`
whose chain of proper ancestors, nearest parent first, is exactly `anc`
(so `anc = []` iff `n` is the root `r` itself). -/

inductive Descends : ASTNode → List ASTNode → ASTNode → Prop where
  | refl (t : ASTNode) : Descends t [] t
  | step {r : ASTNode} {anc : List ASTNode} {p n : ASTNode} :
      Descends r anc p → n ∈ p.children → Descends r (p :: anc) n

theorem descends_nil_inv {r n : ASTNode} (h : Descends r [] n) : n = r := by
  cases h; rfl

theorem descends_cons_inv {r p n : ASTNode} {anc : List ASTNode}
    (h : Descends r (p :: anc) n) : n ∈ p.children ∧ Descends r anc p := by
  cases h with
  | step hp hn => exact ⟨hn, hp⟩

/-- Every entry of the ancestor chain is itself a located node of the
same tree, with the rest of the chain as its own ancestors. -/
theorem descends_toRoot {r n a : ASTNode} :
    ∀ (pre post : List ASTNode), Descends r (pre ++ a :: post) n →
      Descends r post a
  | [], post, h => (descends_cons_inv h).2
  | q :: pre', post, h => by
    have h2 := (descends_cons_inv h).2
    exact descends_toRoot pre' post h2

/-- Extend a descent by one step at the root side. -/
theorem descends_snoc {t c n : ASTNode} {rel : List ASTNode}
    (hc : c ∈ t.children) (h : Descends c rel n) :
    Descends t (rel ++ [t]) n := by
  induction h with
  | refl => exact Descends.step (Descends.refl t) hc
  | step hp hn ih => exact Descends.step ih hn

/-- Remove the root-side step of a descent. -/
theorem descends_snoc_inv {t x n : ASTNode} :
    ∀ (rel : List ASTNode), Descends t (rel ++ [x]) n →
      x = t ∧ ∃ c ∈ t.children, Descends c rel n
  | [], h => by
    obtain ⟨hn, hx⟩ := descends_cons_inv h
    have := descends_nil_inv hx
    subst this
    exact ⟨rfl, n, hn, Descends.refl n⟩
  | p :: rel', h => by
    obtain ⟨hn, hp⟩ := descends_cons_inv h
    obtain ⟨hx, c, hc, hrel⟩ := descends_snoc_inv rel' hp
    exact ⟨hx, c, hc, Descends.step hrel hn⟩

/-- A descent through a marked intermediate node restricts to a descent
from that node. -/
theorem descends_below {r n a : ASTNode} :
    ∀ (pre post : List ASTNode), Descends r (pre ++ a :: post) n →
      Descends a (pre ++ [a]) n
  | [], post, h => by
    obtain ⟨hn, _⟩ := descends_cons_inv h
    exact Descends.step (Descends.refl a) hn
  | q :: pre', post, h => by
    obtain ⟨hn, hq⟩ := descends_cons_inv h
    exact Descends.step (descends_below pre' post hq) hn

/-- Compose a descent below `a` with a descent reaching `a`. -/
theorem descends_trans {r a n : ASTNode} {rel anca : List ASTNode}
    (h1 : Descends a rel n) (h2 : Descends r anca a) :
    Descends r (rel ++ anca) n := by
  induction h1 with
  | refl => simpa using h2
  | step hp hn ih => exact Descends.step ih hn

/-! ## Characterising the depth-first traversal -/

mutual

theorem dfsSp_mem :
    ∀ (t : ASTNode) (a0 : List ASTNode) (n : ASTNode) (ancs : List ASTNode),
      (n, ancs) ∈ dfsSp t a0 ↔ ∃ rel, ancs = rel ++ a0 ∧ Descends t rel n
  | .mk c pf pi ch, a0, n, ancs => by
    rw [dfsSp]
    rw [List.mem_cons]
    constructor
    · intro h
      rcases h with h | h
      · obtain ⟨h1, h2⟩ := Prod.mk.injEq .. ▸ h
        exact ⟨[], by simp [h2], by rw [h1]; exact Descends.refl _⟩
      · rw [dfsSpAll_mem ch (ASTNode.mk c pf pi ch :: a0) n ancs] at h
        obtain ⟨cc, hcc, rel, hancs, hd⟩ := h
        refine ⟨rel ++ [ASTNode.mk c pf pi ch], by simp [hancs], ?_⟩
        exact descends_snoc hcc hd
    · rintro ⟨rel, hancs, hd⟩
      rcases List.eq_nil_or_concat rel with rfl | ⟨rel', x, rfl⟩
      · left
        have := descends_nil_inv hd
        simp [this, hancs]
      · right
        rw [List.concat_eq_append] at hd hancs
        rw [dfsSpAll_mem ch (ASTNode.mk c pf pi ch :: a0) n ancs]
        obtain ⟨hx, cc, hcc, hrel⟩ := descends_snoc_inv rel' hd
        refine ⟨cc, by simpa [ASTNode.children] using hcc, rel', ?_, hrel⟩
        simp [hancs, hx]

theorem dfsSpAll_mem :
    ∀ (ts : List ASTNode) (a0 : List ASTNode) (n : ASTNode) (ancs : List ASTNode),
      (n, ancs) ∈ dfsSpAll ts a0 ↔
        ∃ cc ∈ ts, ∃ rel, ancs = rel ++ a0 ∧ Descends cc rel n
  | [], a0, n, ancs => by simp [dfsSpAll]
  | t :: ts, a0, n, ancs => by
    rw [dfsSpAll]
    rw [List.mem_append]
    rw [dfsSp_mem t a0 n ancs]
    rw [dfsSpAll_mem ts a0 n ancs]
    constructor
    · intro h
      rcases h with ⟨rel, hancs, hd⟩ | ⟨cc, hcc, rel, hancs, hd⟩
      · exact ⟨t, by simp, rel, hancs, hd⟩
      · exact ⟨cc, by simp [hcc], rel, hancs, hd⟩
    · rintro ⟨cc, hcc, rel, hancs, hd⟩
      rcases List.mem_cons.mp hcc with rfl | hcc'
      · exact Or.inl ⟨rel, hancs, hd⟩
      · exact Or.inr ⟨cc, hcc', rel, hancs, hd⟩

end

/-- Membership in `spineTails`: exactly the suffix decompositions. -/
theorem spineTails_mem :
    ∀ (l post : List ASTNode) (a : ASTNode),
      (a, post) ∈ spineTails l ↔ ∃ pre, l = pre ++ a :: post
  | [], post, a => by simp [spineTails]
  | x :: xs, post, a => by
    rw [spineTails]
    rw [List.mem_cons]
    rw [spineTails_mem xs post a]
    constructor
    · intro h
      rcases h with h | ⟨pre, hpre⟩
      · obtain ⟨h1, h2⟩ := Prod.mk.injEq .. ▸ h
        exact ⟨[], by simp [h1, h2]⟩
      · exact ⟨x :: pre, by simp [hpre]⟩
    · rintro ⟨pre, hpre⟩
      cases pre with
      | nil =>
        simp at hpre
        left
        simp [hpre.1, hpre.2]
      | cons p pre' =>
        simp at hpre
        right
        exact ⟨pre', by simp [hpre.2]⟩

/-! ## The search frontier of `findall` -/

theorem findallWork_snoc (R : TypeRegistry) (r : ASTNode)
    (els : List ASTXpathElement) (e : ASTXpathElement) :
    findallWork R (els ++ [e]) r = findallStep R (findallWork R els r) e := by
  simp [findallWork, List.foldl_append]

theorem findallStep_mem {R : TypeRegistry} {work : List Spine}
    {e : ASTXpathElement} {sp : Spine} :
    sp ∈ findallStep R work e ↔
      ∃ sp' ∈ work, matchNodeElement R sp.1 e = true ∧
        (if e.anywhere then sp ∈ dfsSkipSelf sp' else sp ∈ childrenSp sp') := by
  unfold findallStep
  rw [List.mem_flatMap]
  apply exists_congr
  intro sp'
  by_cases ha : e.anywhere
  · simp [ha, List.mem_filter, and_comm, and_assoc]
  · simp [ha, List.mem_filter, and_comm, and_assoc]

theorem childrenSp_mem {a : ASTNode} {aanc : List ASTNode}
    {n : ASTNode} {ancs : List ASTNode} :
    (n, ancs) ∈ childrenSp (a, aanc) ↔ n ∈ a.children ∧ ancs = a :: aanc := by
  simp only [childrenSp, List.mem_map, Prod.mk.injEq]
  constructor
  · rintro ⟨c, hc, h1, h2⟩
    exact ⟨h1 ▸ hc, h2.symm⟩
  · rintro ⟨hn, he⟩
    exact ⟨n, hn, rfl, he.symm⟩

theorem dfsSkipSelf_mem {a : ASTNode} {aanc : List ASTNode}
    {n : ASTNode} {ancs : List ASTNode} :
    (n, ancs) ∈ dfsSkipSelf (a, aanc) ↔
      ∃ cc ∈ a.children, ∃ rel, ancs = rel ++ (a :: aanc) ∧ Descends cc rel n := by
  unfold dfsSkipSelf
  exact dfsSpAll_mem _ _ _ _

/-- Every member of a non-trivial frontier is a genuine located node of
the tree rooted at `r`, carrying the synthetic wrapper at the far end of
its ancestor chain. -/
theorem frontierSound (R : TypeRegistry) (r : ASTNode) :
    ∀ (els : List ASTXpathElement), els ≠ [] →
      ∀ sp ∈ findallWork R els r,
        ∃ a anca, sp = (a, anca ++ [dummyNode r]) ∧ Descends r anca a := by
  intro els
  induction els using List.reverseRecOn with
  | nil => intro h; exact absurd rfl h
  | append_singleton l e ih =>
    intro _ sp hsp
    obtain ⟨n, ancs⟩ := sp
    rw [findallWork_snoc] at hsp
    rcases findallStep_mem.mp hsp with ⟨sp', hsp', hmne, hbranch⟩
    rcases List.eq_nil_or_concat l with rfl | ⟨l', e', rfl⟩
    · -- the previous frontier is the initial one: `[(dummy, [])]`
      simp [findallWork] at hsp'
      subst hsp'
      by_cases ha : e.anywhere
      · rw [if_pos ha] at hbranch
        rw [dfsSkipSelf_mem] at hbranch
        obtain ⟨cc, hcc, rel, hancs, hdcc⟩ := hbranch
        simp [dummyNode, ASTNode.children] at hcc
        subst hcc
        exact ⟨n, rel, by simp [hancs], hdcc⟩
      · rw [if_neg ha] at hbranch
        rw [childrenSp_mem] at hbranch
        obtain ⟨hch, hancs⟩ := hbranch
        simp [dummyNode, ASTNode.children] at hch
        subst hch
        exact ⟨n, [], by simp [hancs], Descends.refl n⟩
    · obtain ⟨a, anca, rfl, hda⟩ := ih (by simp) sp' hsp'
      by_cases ha : e.anywhere
      · rw [if_pos ha] at hbranch
        rw [dfsSkipSelf_mem] at hbranch
        obtain ⟨cc, hcc, rel, hancs, hdcc⟩ := hbranch
        refine ⟨n, rel ++ a :: anca, by simp [hancs], ?_⟩
        have h1 : Descends a (rel ++ [a]) n := descends_snoc hcc hdcc
        have h2 := descends_trans h1 hda
        simpa using h2
      · rw [if_neg ha] at hbranch
        rw [childrenSp_mem] at hbranch
        obtain ⟨hch, hancs⟩ := hbranch
        exact ⟨n, a :: anca, by simp [hancs], Descends.step hda hch⟩

/-- The bottom-up matcher agrees with the top-down frontier: a located
node `(n, ancs)` of the tree rooted at `r` satisfies
`_match_node_xpath` on the leaf-to-root elements `e :: rest` iff its
image (with the synthetic wrapper appended) lies in the frontier that
`findall` computes for the reversed (root-to-leaf) element list. -/
theorem matchGo_iff_frontier (R : TypeRegistry) (r : ASTNode) :
    ∀ (rest : List ASTXpathElement) (e : ASTXpathElement)
      (n : ASTNode) (ancs : List ASTNode), Descends r ancs n →
      (matchNodeXpathGo R n ancs e rest = true ↔
        (n, ancs ++ [dummyNode r]) ∈ findallWork R ((e :: rest).reverse) r) := by
  intro rest
  induction rest with
  | nil =>
    intro e n ancs hd
    have hwork : findallWork R [e] r = findallStep R [(dummyNode r, [])] e := by
      simp [findallWork]
    simp only [List.reverse_cons, List.reverse_nil, List.nil_append]
    rw [hwork]
    constructor
    · intro hm
      simp only [matchNodeXpathGo] at hm
      split at hm
      · exact absurd hm (by simp)
      · rename_i hcond
        have hmn : matchNodeElement R n e = true := by
          revert hcond
          cases matchNodeElement R n e <;> simp
        rw [findallStep_mem]
        refine ⟨(dummyNode r, []), by simp, hmn, ?_⟩
        by_cases ha : e.anywhere
        · rw [if_pos ha]
          rw [dfsSkipSelf_mem]
          exact ⟨r, by simp [dummyNode, ASTNode.children], ancs, by simp, hd⟩
        · rw [if_neg ha]
          have hempty : ancs = [] := by
            rcases Bool.or_eq_true_iff.mp hm with h | h
            · exact absurd h (by simp [ha])
            · simpa using h
          subst hempty
          have hnr : n = r := descends_nil_inv hd
          rw [childrenSp_mem]
          exact ⟨by simp [hnr, dummyNode, ASTNode.children], by simp⟩
    · intro hmem
      rw [findallStep_mem] at hmem
      obtain ⟨sp', hsp', hmne, hbr⟩ := hmem
      simp at hsp'
      subst hsp'
      simp only [matchNodeXpathGo]
      rw [if_neg (by simp [hmne])]
      by_cases ha : e.anywhere
      · simp [ha]
      · rw [if_neg ha] at hbr
        rw [childrenSp_mem] at hbr
        obtain ⟨_, hancs⟩ := hbr
        have : ancs = [] := by simpa using hancs
        simp [this]
  | cons e2 rest2 ih =>
    intro e n ancs hd
    have hrev : (e :: e2 :: rest2).reverse = (e2 :: rest2).reverse ++ [e] := by
      simp
    rw [hrev, findallWork_snoc]
    have hWne : ((e2 :: rest2).reverse : List ASTXpathElement) ≠ [] := by simp
    constructor
    · intro hm
      simp only [matchNodeXpathGo] at hm
      split at hm
      · exact absurd hm (by simp)
      · rename_i hcond
        have hmn : matchNodeElement R n e = true := by
          revert hcond
          cases matchNodeElement R n e <;> simp
        cases ancs with
        | nil => simp at hm
        | cons p ancs2 =>
          simp only [] at hm
          by_cases ha : e.anywhere
          · rw [if_pos ha] at hm
            rw [List.any_eq_true] at hm
            obtain ⟨⟨a, post⟩, hmem, hmg⟩ := hm
            rw [spineTails_mem] at hmem
            obtain ⟨pre, hpre⟩ := hmem
            rw [hpre] at hd
            have hda : Descends r post a := descends_toRoot pre post hd
            have hmemW := (ih e2 a post hda).mp hmg
            rw [findallStep_mem]
            refine ⟨(a, post ++ [dummyNode r]), hmemW, hmn, ?_⟩
            rw [if_pos ha]
            rw [dfsSkipSelf_mem]
            have hbelow : Descends a (pre ++ [a]) n := descends_below pre post hd
            obtain ⟨-, cc, hcc, hccd⟩ := descends_snoc_inv pre hbelow
            exact ⟨cc, hcc, pre, by simp [hpre], hccd⟩
          · rw [if_neg ha] at hm
            obtain ⟨hnp, hdp⟩ := descends_cons_inv hd
            have hmemW := (ih e2 p ancs2 hdp).mp hm
            rw [findallStep_mem]
            refine ⟨(p, ancs2 ++ [dummyNode r]), hmemW, hmn, ?_⟩
            rw [if_neg ha]
            rw [childrenSp_mem]
            exact ⟨hnp, by simp⟩
    · intro hmem
      rw [findallStep_mem] at hmem
      obtain ⟨sp', hsp'W, hmne, hbr⟩ := hmem
      obtain ⟨a, anca, rfl, hda⟩ := frontierSound R r _ hWne sp' hsp'W
      have hmn : matchNodeElement R n e = true := hmne
      simp only [matchNodeXpathGo]
      rw [if_neg (by simp [hmn])]
      by_cases ha : e.anywhere
      · rw [if_pos ha] at hbr
        rw [dfsSkipSelf_mem] at hbr
        obtain ⟨cc, hcc, rel, heq, hdcc⟩ := hbr
        have heq' : ancs = rel ++ a :: anca :=
          List.append_cancel_right
            (show ancs ++ [dummyNode r] = (rel ++ a :: anca) ++ [dummyNode r] by
              simpa using heq)
        subst heq'
        obtain ⟨p, ancs2, hpa⟩ :=
          List.exists_cons_of_ne_nil
            (show (rel ++ a :: anca : List ASTNode) ≠ [] by simp)
        rw [hpa]
        simp only []
        rw [if_pos ha]
        rw [List.any_eq_true]
        refine ⟨(a, anca), ?_, (ih e2 a anca hda).mpr hsp'W⟩
        rw [spineTails_mem]
        exact ⟨rel, hpa.symm⟩
      · rw [if_neg ha] at hbr
        rw [childrenSp_mem] at hbr
        obtain ⟨hnch, heq⟩ := hbr
        have heq' : ancs = a :: anca :=
          List.append_cancel_right
            (show ancs ++ [dummyNode r] = (a :: anca) ++ [dummyNode r] by
              simpa using heq)
        subst heq'
        simp only []
        rw [if_neg ha]
        exact (ih e2 a anca hda).mpr hsp'W

/-! ## Cache lemmas -/

theorem findallX_of_ne_nil {R : TypeRegistry} {els : List ASTXpathElement}
    {root : ASTNode} (h : els ≠ []) :
    findallX R els root = some (findallWork R els root) := by
  cases els with
  | nil => exact absurd rfl h
  | cons e rest => rfl

theorem cacheLookup_write_present :
    ∀ (c : List (String × PathObj)) (s : String) (o : PathObj) (k : Nat),
      (c.find? fun p => p.1 == s).isSome →
      cacheLookup ⟨cacheWrite c s o, k⟩ s = some o
  | [], s, o, k, h => by simp at h
  | q :: c', s, o, k, h => by
    by_cases hq : (q.1 == s) = true
    · have hq' : q.1 = s := by simpa using hq
      have hcw : cacheWrite (q :: c') s o = (q.1, o) :: cacheWrite c' s o := by
        simp [cacheWrite, hq']
      simp only [cacheLookup]
      rw [hcw, List.find?_cons_of_pos _ (by simpa using hq)]
      rfl
    · have h' : (c'.find? fun p => p.1 == s).isSome := by
        rw [List.find?_cons_of_neg _ (by simpa using hq)] at h
        exact h
      have ih := cacheLookup_write_present c' s o k h'
      simp only [cacheLookup, cacheWrite] at ih ⊢
      simp only [List.map_cons, if_neg hq]
      rw [List.find?_cons_of_neg _ (by simpa using hq)]
      exact ih

theorem astXpathNew_present (st : XpathCacheState) (s : String) :
    (((astXpathNew st s).2.cache).find? fun p => p.1 == s).isSome := by
  unfold astXpathNew
  cases h : cacheLookup st s with
  | some o =>
    simp only []
    unfold cacheLookup at h
    obtain ⟨q, hq⟩ := Option.map_eq_some'.mp h
    simp [hq.1]
  | none =>
    simp only [List.find?_append]
    have h0 : (st.cache.find? fun p => p.1 == s) = none := by
      unfold cacheLookup at h
      exact Option.map_eq_none'.mp h
    simp [h0]

theorem astXpathInit_idem {R : TypeRegistry} {o o2 : PathObj} {s : String}
    (h : astXpathInit R o s = .ok o2) : astXpathInit R o2 s = .ok o2 := by
  unfold astXpathInit at h ⊢
  cases hc : compileXpath R s with
  | error e => rw [hc] at h; simp [Except.map] at h
  | ok rev =>
    rw [hc] at h
    simp [Except.map] at h
    simp [Except.map, ← h]

/-! ## Concrete fixtures used by witnesses and counterexamples -/

/-- A small concrete type registry: the names `A`, `B` and `Root`
resolve to themselves; `isInst` is class-name equality extended with the
`ASTNode` wildcard base. -/
def sampleRegistry : TypeRegistry :=
  { resolve := fun nm => if nm = "A" ∨ nm = "B" ∨ nm = "Root" then some nm else none
    isInst := fun c t => c == t || t == "ASTNode" }

/-- A single node of class `A`. -/
def aNode : ASTNode := .mk "A" none none []

/-- The compiled element of the path `/A`. -/
def elemA : ASTXpathElement := ⟨"A", none, none, false⟩

/-- Leaf of class `B` for the `C7` counterexample tree `Root[X[B]]`. -/
def cexLeaf : ASTNode := .mk "B" none none []

/-- Middle node of class `X`. -/
def cexMid : ASTNode := .mk "X" none none [cexLeaf]

/-- Root of the counterexample tree. -/
def cexRoot : ASTNode := .mk "Root" none none [cexMid]

/-- The empty process state: empty cache, first object identity `0`. -/
def emptyState : XpathCacheState := ⟨[], 0⟩

/-! ## The claims -/

/-- C3: for a node satisfying the single-element test of the final
(root-most) element of a compiled path whose remaining element list is
that single element, the bottom-up match succeeds iff the element is
`anywhere` or the node has no parent — so a non-anywhere final segment
matches only the absolute root of the tree. -/
theorem claim_C3 (R : TypeRegistry) (p : String) (e : ASTXpathElement)
    (_hc : compileXpath R p = .ok [e]) (n : ASTNode) (ancs : List ASTNode)
    (hm : matchNodeElement R n e = true) :
    (matchNodeXpathGo R n ancs e [] = true ↔
      (e.anywhere = true ∨ ancs = [])) := by
  simp [matchNodeXpathGo, hm, List.isEmpty_iff]

/-- C3 witness: the path `/A` compiles to the single non-anywhere
element `A`; an `A` node with an ancestor does not match, the bare `A`
root does. -/
theorem claim_C3_witness :
    (matchNodeXpathGo sampleRegistry aNode [] elemA [] = true ↔
      (elemA.anywhere = true ∨ ([] : List ASTNode) = [])) ∧
    (matchNodeXpathGo sampleRegistry aNode [cexRoot] elemA [] = true ↔
      (elemA.anywhere = true ∨ ([cexRoot] : List ASTNode) = [])) :=
  ⟨claim_C3 sampleRegistry "/A" elemA rfl aNode [] (by decide),
   claim_C3 sampleRegistry "/A" elemA rfl aNode [cexRoot] (by decide)⟩

/-- C4: the element compiler emits one element (with `anywhere = false`)
per class-bearing raw segment; a run of one or more class-less
placeholder segments sets `anywhere := true` on the most recently
emitted element exactly once, emitting nothing for the placeholders; and
if the raw segments are exhausted inside such a run the last emitted
element is marked `anywhere` and compilation stops. -/
theorem claim_C4 (pf : Option String) (pi : Option Int) (c : String)
    (rest : List RawSeg) (ret ret2 : List ASTXpathElement)
    (ns : List RawSeg) (hns : ∀ x ∈ ns, x.2.2 = none) (hne : ns ≠ [])
    (hret : setLastAnywhere ret = some ret2) :
    xformGo ret ((pf, pi, some c) :: rest) =
      xformGo (ret ++ [⟨c, pf, pi, false⟩]) rest ∧
    xformGo ret (ns ++ (pf, pi, some c) :: rest) =
      xformGo (ret2 ++ [⟨c, pf, pi, false⟩]) rest ∧
    xformGo ret ns = some ret2 := by
  refine ⟨rfl, ?_, ?_⟩
  · rw [xformGo_none_run ns hns hne ret ret2 _ hret]
    rfl
  · have h := xformGo_none_run ns hns hne ret ret2 [] hret
    rw [List.append_nil] at h
    rw [h]
    rfl

/-- C4 witness: a single placeholder after a `B` element marks it
`anywhere`. -/
theorem claim_C4_witness :
    xformGo [⟨"B", none, none, false⟩]
        ((none, none, some "A") :: []) =
      xformGo [⟨"B", none, none, false⟩, ⟨"A", none, none, false⟩] [] ∧
    xformGo [⟨"B", none, none, false⟩]
        ([(none, none, none)] ++ (none, none, some "A") :: []) =
      xformGo [⟨"B", none, none, true⟩, ⟨"A", none, none, false⟩] [] ∧
    xformGo [⟨"B", none, none, false⟩] [(none, none, none)] =
      some [⟨"B", none, none, true⟩] :=
  claim_C4 none none "A" [] [⟨"B", none, none, false⟩]
    [⟨"B", none, none, true⟩] [(none, none, none)]
    (by decide) (by decide) rfl

/-- C5: a path string that does not begin with `/` compiles exactly as
the same string prefixed with `//`, hence `match` and `findall` behave
identically for the two paths. -/
theorem claim_C5 (R : TypeRegistry) (s : String)
    (h : startsWithSlash s = false) :
    compileXpath R s = compileXpath R ("//" ++ s) ∧
    ∀ els els', compileXpath R s = .ok els →
      compileXpath R ("//" ++ s) = .ok els' →
      (∀ (n : ASTNode) (ancs : List ASTNode),
        matchNodeXpath R n ancs els = matchNodeXpath R n ancs els') ∧
      (∀ root : ASTNode,
        findallX R els.reverse root = findallX R els'.reverse root) := by
  have h2 : startsWithSlash ("//" ++ s) = true := by
    unfold startsWithSlash
    rw [String.data_append]
    rfl
  have hmain : compileXpath R s = compileXpath R ("//" ++ s) := by
    unfold compileXpath normalizeXpath
    rw [h]
    rw [h2]
    simp
  refine ⟨hmain, ?_⟩
  intro els els' h1 hsec
  rw [hmain, hsec] at h1
  cases h1
  exact ⟨fun _ _ => rfl, fun _ => rfl⟩

/-- C5 witness: the relative path `A` and the absolute `//A`. -/
theorem claim_C5_witness :
    compileXpath sampleRegistry "A" = compileXpath sampleRegistry ("//" ++ "A") :=
  (claim_C5 sampleRegistry "A" rfl).1

/-- C7 counterexample: the claim's "exactly as if the index spec had
been omitted from the segment" fails for a segment consisting solely of
`[]`.  The path `/[]/B` (segment `[]` alone) compiles to a wildcard
one-step element plus `B`, while `//B` — the same path with the index
spec omitted — compiles to a single `anywhere` element, and the two
paths match differently on the `B` node of the tree `Root[X[B]]`. -/
theorem claim_C7_counterexample :
    compileXpath sampleRegistry "/[]/B" ≠ compileXpath sampleRegistry "//B" ∧
    compileXpath sampleRegistry "/[]/B" =
      .ok [⟨"B", none, none, false⟩, ⟨"ASTNode", none, none, false⟩] ∧
    compileXpath sampleRegistry "//B" = .ok [⟨"B", none, none, true⟩] ∧
    matchNodeXpath sampleRegistry cexLeaf [cexMid, cexRoot]
      [⟨"B", none, none, false⟩, ⟨"ASTNode", none, none, false⟩] = some false ∧
    matchNodeXpath sampleRegistry cexLeaf [cexMid, cexRoot]
      [⟨"B", none, none, true⟩] = some true := by
  refine ⟨?_, rfl, rfl, by decide, by decide⟩
  intro h
  rw [show compileXpath sampleRegistry "/[]/B" =
        .ok [⟨"B", none, none, false⟩, ⟨"ASTNode", none, none, false⟩] from rfl,
      show compileXpath sampleRegistry "//B" =
        .ok [⟨"B", none, none, true⟩] from rfl] at h
  exact absurd (Except.ok.inj h) (by decide)

/-- C7 amended: an index spec with no digits compiles to no index filter
(`parent_index = none`), and an element without an index filter tests
nodes independently of their parent index; for a segment that also
carries a field spec or a class name this is exactly as if the index
spec had been omitted — but not for a segment consisting solely of `[]`,
which still compiles to a wildcard element whereas full omission would
leave an empty placeholder. -/
theorem claim_C7_amended (R : TypeRegistry) (pf : Option String)
    (clsO : Option String) (hnb : pf ≠ none ∨ clsO ≠ none) :
    elementT R ⟨pf, some [], clsO⟩ = elementT R ⟨pf, none, clsO⟩ ∧
    (∀ rw, elementT R ⟨pf, some [], clsO⟩ = .ok rw → rw.2.1 = none) ∧
    (∀ el : ASTXpathElement, el.parent_index = none →
      ∀ cls pfn pin pin' ch,
        matchNodeElement R (.mk cls pfn pin ch) el =
          matchNodeElement R (.mk cls pfn pin' ch) el) := by
  refine ⟨?_, ?_, ?_⟩
  · have hne1 : (⟨pf, some [], clsO⟩ : RawSegS) ≠ ⟨none, none, none⟩ := by
      simp
    have hne2 : (⟨pf, none, clsO⟩ : RawSegS) ≠ ⟨none, none, none⟩ := by
      rcases hnb with h | h <;> simp [h]
    unfold elementT
    rw [if_neg hne1, if_neg hne2]
    cases hr : resolveClsName R clsO <;>
      simp [idxFilter, indexSpecT]
  · intro rw hrw
    have hne1 : (⟨pf, some [], clsO⟩ : RawSegS) ≠ ⟨none, none, none⟩ := by
      simp
    unfold elementT at hrw
    rw [if_neg hne1] at hrw
    cases hr : resolveClsName R clsO with
    | error e => rw [hr] at hrw; simp at hrw
    | ok c =>
      rw [hr] at hrw
      cases hrw
      simp [idxFilter, indexSpecT]
  · intro el hel cls pfn pin pin' ch
    simp [matchNodeElement, hel, ASTNode.cls, ASTNode.parentFieldName]

/-- C7 amended witness: `@f[]` versus `@f` (where the equivalence does
hold), the resulting filter, and index-independence of an element with
no index filter. -/
theorem claim_C7_amended_witness :
    elementT sampleRegistry ⟨some "f", some [], none⟩ =
      elementT sampleRegistry ⟨some "f", none, none⟩ ∧
    (∀ rw, elementT sampleRegistry ⟨some "f", some [], none⟩ = .ok rw →
      rw.2.1 = none) ∧
    (∀ el : ASTXpathElement, el.parent_index = none →
      ∀ cls pfn pin pin' ch,
        matchNodeElement sampleRegistry (.mk cls pfn pin ch) el =
          matchNodeElement sampleRegistry (.mk cls pfn pin' ch) el) :=
  claim_C7_amended sampleRegistry (some "f") none (Or.inl (by simp))

/-- C9: a successfully constructed `ASTXpath` object stores a non-empty
leaf-to-root element list, and its root-to-leaf list is exactly the
reverse; both are computed once by `__init__` from the source string. -/
theorem claim_C9 (R : TypeRegistry) (st : XpathCacheState) (s : String)
    (o : PathObj) (st' : XpathCacheState)
    (h : astXpathCtor R st s = (.ok o, st')) :
    ∃ rev, o.elemsRev = some rev ∧ o.elems = some rev.reverse ∧ rev ≠ [] := by
  unfold astXpathCtor at h
  cases hnew : astXpathNew st s with
  | mk o0 st1 =>
  rw [hnew] at h
  simp only [] at h
  cases hinit : astXpathInit R o0 s with
  | error e =>
    rw [hinit] at h
    simp at h
  | ok o2 =>
    rw [hinit] at h
    simp only [] at h
    have ho : o2 = o := by
      have := congrArg Prod.fst h
      simpa using this
    subst ho
    unfold astXpathInit at hinit
    cases hc : compileXpath R s with
    | error e => rw [hc] at hinit; simp [Except.map] at hinit
    | ok rev =>
      rw [hc] at hinit
      simp [Except.map] at hinit
      refine ⟨rev, ?_, ?_, parseXpathElems_ne_nil hc⟩
      · rw [← hinit]
      · rw [← hinit]

/-- C9 witness: constructing `/A` in the empty state. -/
theorem claim_C9_witness :
    ∃ rev, (⟨0, some [elemA], some [elemA]⟩ : PathObj).elemsRev = some rev ∧
      (⟨0, some [elemA], some [elemA]⟩ : PathObj).elems = some rev.reverse ∧
      rev ≠ [] :=
  claim_C9 sampleRegistry emptyState "/A" ⟨0, some [elemA], some [elemA]⟩
    ⟨[("/A", ⟨0, some [elemA], some [elemA]⟩)], 1⟩ rfl

/-- C10: an index spec with two or more digits compiles to the integer
value of the first digit only — each digit is a separate `DIGIT` token
and the transformer converts only `args[0]` — so `[12]` compiles to the
same index filter as `[1]`. -/
theorem claim_C10 (d1 d2 : Char) (ds : List Char) :
    indexSpecT (d1 :: d2 :: ds) = Int.ofNat (d1.toNat - '0'.toNat) ∧
    indexSpecT (d1 :: d2 :: ds) = indexSpecT [d1] ∧
    (∀ (R : TypeRegistry) (pf clsO),
      elementT R ⟨pf, some (d1 :: d2 :: ds), clsO⟩ =
        elementT R ⟨pf, some [d1], clsO⟩) ∧
    compileXpath sampleRegistry "/[12]B" = compileXpath sampleRegistry "/[1]B" := by
  refine ⟨rfl, rfl, ?_, rfl⟩
  intro R pf clsO
  unfold elementT
  rw [if_neg (by simp), if_neg (by simp)]
  cases hr : resolveClsName R clsO <;> simp [idxFilter, indexSpecT]

/-- C6: constructing `ASTXpath(p)` a second time returns the identical
object the first construction returned, and the cache is keyed on the
original, unnormalized source string `p`. -/
theorem claim_C6 (R : TypeRegistry) (st : XpathCacheState) (p : String)
    (o1 : PathObj) (st1 : XpathCacheState)
    (h : astXpathCtor R st p = (.ok o1, st1)) :
    cacheLookup st1 p = some o1 ∧
    ∃ st2, astXpathCtor R st1 p = (.ok o1, st2) := by
  unfold astXpathCtor at h
  cases hnew : astXpathNew st p with
  | mk o0 stN =>
  rw [hnew] at h
  simp only [] at h
  cases hinit : astXpathInit R o0 p with
  | error e => rw [hinit] at h; simp at h
  | ok o2 =>
    rw [hinit] at h
    simp only [] at h
    have ho : o2 = o1 := by
      have := congrArg Prod.fst h
      simpa using this
    subst ho
    have hst : st1 = ⟨cacheWrite stN.cache p o2, stN.nextOid⟩ := by
      have := congrArg Prod.snd h
      simpa using this.symm
    have hpres : ((stN.cache).find? fun q => q.1 == p).isSome := by
      have := astXpathNew_present st p
      rw [hnew] at this
      exact this
    have hlook : cacheLookup st1 p = some o2 := by
      rw [hst]
      exact cacheLookup_write_present stN.cache p o2 stN.nextOid hpres
    refine ⟨hlook, ⟨cacheWrite st1.cache p o2, st1.nextOid⟩, ?_⟩
    unfold astXpathCtor astXpathNew
    rw [hlook]
    simp only []
    rw [astXpathInit_idem hinit]

/-- C6 witness: compiling `/A` from the empty state, then again. -/
theorem claim_C6_witness :
    cacheLookup ⟨[("/A", ⟨0, some [elemA], some [elemA]⟩)], 1⟩ "/A" =
      some ⟨0, some [elemA], some [elemA]⟩ ∧
    ∃ st2, astXpathCtor sampleRegistry
        ⟨[("/A", ⟨0, some [elemA], some [elemA]⟩)], 1⟩ "/A" =
      (.ok ⟨0, some [elemA], some [elemA]⟩, st2) :=
  claim_C6 sampleRegistry emptyState "/A" ⟨0, some [elemA], some [elemA]⟩
    ⟨[("/A", ⟨0, some [elemA], some [elemA]⟩)], 1⟩ rfl

/-- C2 counterexample: constructing the invalid path `/` raises an
`ASTXpathDefinitionError`, yet the process-wide cache is NOT left
unchanged — `__new__` inserts the uninitialised object under `/` before
`__init__` validates, so the failed call does cache a path object
shell. -/
theorem claim_C2_counterexample :
    (astXpathCtor sampleRegistry emptyState "/").1 =
      .error "Incorrect xpath definition" ∧
    (astXpathCtor sampleRegistry emptyState "/").2 ≠ emptyState ∧
    cacheLookup (astXpathCtor sampleRegistry emptyState "/").2 "/" =
      some ⟨0, none, none⟩ := by
  refine ⟨rfl, by decide, rfl⟩

/-- C2 amended: a failed `ASTXpath(s)` call raises and returns no path
object to the caller, but it does change the cache: `__new__` inserts an
uninitialised shell under the original string `s` before `__init__`
validates.  A subsequent call for `s` re-runs `__init__` on the cached
shell and (under the same registry) raises the same error, so no
partial or degraded path is ever handed to a caller. -/
theorem claim_C2_amended (R : TypeRegistry) (st : XpathCacheState) (s : String)
    (habs : cacheLookup st s = none) (e : String) (st' : XpathCacheState)
    (hfail : astXpathCtor R st s = (.error e, st')) :
    cacheLookup st' s = some ⟨st.nextOid, none, none⟩ ∧
    (astXpathCtor R st' s).1 = .error e := by
  unfold astXpathCtor at hfail
  have hnew : astXpathNew st s =
      (⟨st.nextOid, none, none⟩,
       ⟨st.cache ++ [(s, ⟨st.nextOid, none, none⟩)], st.nextOid + 1⟩) := by
    unfold astXpathNew
    rw [habs]
  rw [hnew] at hfail
  simp only [] at hfail
  cases hinit : astXpathInit R ⟨st.nextOid, none, none⟩ s with
  | ok o2 => rw [hinit] at hfail; simp at hfail
  | error e1 =>
    rw [hinit] at hfail
    simp only [] at hfail
    have he : e1 = e := by
      have := congrArg Prod.fst hfail
      simpa using this
    subst he
    have hst : st' =
        ⟨st.cache ++ [(s, ⟨st.nextOid, none, none⟩)], st.nextOid + 1⟩ := by
      have := congrArg Prod.snd hfail
      simpa using this.symm
    have hfind : (st.cache.find? fun q => q.1 == s) = none := by
      unfold cacheLookup at habs
      exact Option.map_eq_none'.mp habs
    have hlook : cacheLookup st' s = some ⟨st.nextOid, none, none⟩ := by
      rw [hst]
      unfold cacheLookup
      simp [List.find?_append, hfind]
    refine ⟨hlook, ?_⟩
    unfold astXpathCtor astXpathNew
    rw [hlook]
    simp only []
    rw [hinit]

/-- C2 amended witness: the invalid path `/` from the empty state. -/
theorem claim_C2_amended_witness :
    cacheLookup ⟨[("/", ⟨0, none, none⟩)], 1⟩ "/" = some ⟨0, none, none⟩ ∧
    (astXpathCtor sampleRegistry ⟨[("/", ⟨0, none, none⟩)], 1⟩ "/").1 =
      .error "Incorrect xpath definition" :=
  claim_C2_amended sampleRegistry emptyState "/" rfl
    "Incorrect xpath definition" ⟨[("/", ⟨0, none, none⟩)], 1⟩ rfl

/-- C1: for a compiled path whose elements carry no field or index
constraints, the bottom-up `match` and the top-down `findall` agree
pointwise: a located node of the tree rooted at `root` matches iff it
appears among the nodes `findall(root)` yields. -/
theorem claim_C1 (R : TypeRegistry) (s : String) (elsRev : List ASTXpathElement)
    (hc : compileXpath R s = .ok elsRev)
    (_hres : ∀ e ∈ elsRev, e.parent_field = none ∧ e.parent_index = none)
    (root n : ASTNode) (ancs : List ASTNode) (hd : Descends root ancs n) :
    ∃ l, findallX R elsRev.reverse root = some l ∧
      (matchNodeXpath R n ancs elsRev = some true ↔
        (n, ancs ++ [dummyNode root]) ∈ l) := by
  have hne : elsRev ≠ [] := parseXpathElems_ne_nil hc
  obtain ⟨e, rest, rfl⟩ := List.exists_cons_of_ne_nil hne
  refine ⟨findallWork R ((e :: rest).reverse) root,
    findallX_of_ne_nil (by simp), ?_⟩
  simp only [matchNodeXpath, Option.some.injEq]
  exact matchGo_iff_frontier R root rest e n ancs hd

/-- C1 witness: the path `/A`, matched and searched on the one-node
tree `A`. -/
theorem claim_C1_witness :
    ∃ l, findallX sampleRegistry [elemA].reverse aNode = some l ∧
      (matchNodeXpath sampleRegistry aNode [] [elemA] = some true ↔
        (aNode, [dummyNode aNode]) ∈ l) :=
  claim_C1 sampleRegistry "/A" [elemA] rfl (by decide) aNode aNode []
    (Descends.refl aNode)

/-- C8: on an already-compiled path, `match` is total (it returns a
boolean for every located node; the element list is never empty, so the
`elements[0]` access cannot fail) and `findall` is total (it returns a
finite list for every root); a tree in which no located node matches
yields the empty sequence, never an error. -/
theorem claim_C8 (R : TypeRegistry) (s : String) (elsRev : List ASTXpathElement)
    (hc : compileXpath R s = .ok elsRev) :
    (∀ (n : ASTNode) (ancs : List ASTNode), ∃ b,
      matchNodeXpath R n ancs elsRev = some b) ∧
    (∀ root : ASTNode, ∃ l, findallX R elsRev.reverse root = some l) ∧
    (∀ root : ASTNode,
      (∀ (n : ASTNode) (ancs : List ASTNode), Descends root ancs n →
        matchNodeXpath R n ancs elsRev ≠ some true) →
      findallX R elsRev.reverse root = some []) := by
  have hne : elsRev ≠ [] := parseXpathElems_ne_nil hc
  obtain ⟨e, rest, rfl⟩ := List.exists_cons_of_ne_nil hne
  refine ⟨?_, ?_, ?_⟩
  · intro n ancs
    exact ⟨matchNodeXpathGo R n ancs e rest, rfl⟩
  · intro root
    exact ⟨findallWork R ((e :: rest).reverse) root, findallX_of_ne_nil (by simp)⟩
  · intro root hno
    rw [findallX_of_ne_nil (by simp)]
    have hwork : findallWork R ((e :: rest).reverse) root = [] := by
      apply List.eq_nil_iff_forall_not_mem.mpr
      intro sp hsp
      obtain ⟨a, anca, rfl, hda⟩ := frontierSound R root _ (by simp) sp hsp
      have hmg := (matchGo_iff_frontier R root rest e a anca hda).mpr hsp
      exact hno a anca hda (by simp [matchNodeXpath, hmg])
    rw [hwork]

/-- C8 witness: the compiled path `/A`. -/
theorem claim_C8_witness :
    (∀ (n : ASTNode) (ancs : List ASTNode), ∃ b,
      matchNodeXpath sampleRegistry n ancs [elemA] = some b) ∧
    (∀ root : ASTNode, ∃ l,
      findallX sampleRegistry [elemA].reverse root = some l) ∧
    (∀ root : ASTNode,
      (∀ (n : ASTNode) (ancs : List ASTNode), Descends root ancs n →
        matchNodeXpath sampleRegistry n ancs [elemA] ≠ some true) →
      findallX sampleRegistry [elemA].reverse root = some []) :=
  claim_C8 sampleRegistry "/A" [elemA] rfl

end PyoakXpath
